import Mathlib

set_option maxHeartbeats 1000000
set_option maxRecDepth 100000

/-!
Verification development for the document-translation pipeline in
`src/translator.py` (class `DocumentProcessor`).

Strings are modelled as `List Char`; paths are strings joined with '/'
(mirroring `pathlib`'s `/` on relative parts).  Filesystem and console
side effects are modelled as an explicit list of events (`Eff`).  The
external translation oracle (`ollama.chat`) is a parameter returning
either the response content or an exception message (`Except`).  The
page-oriented reader (`fitz`) is modelled by a `PdfDoc` structure giving
the per-page extracted text and the table of contents; the packaged
container reader (`ebooklib` + `html2text`) is a black box modelled by
its resulting chapter list (`Option`, `none` meaning the library threw).
-/

/-- Convert a string literal to the `List Char` representation used throughout. -/
def tl (s : String) : List Char := s.data

/-- Observable side effects of a run: directory creation (`Path.mkdir`),
file copy (`shutil.copy2`), file write (`write_file`), console output (`print`). -/
inductive Eff where
  | mkdirE (path : List Char)
  | copyE (src dst : List Char)
  | writeE (path : List Char) (content : List Char)
  | printE (msg : List Char)
deriving DecidableEq

/-! ### The image-reference scanner

`process_markdown_images` (translator.py:96-115) applies
`re.sub(r"!\[(.*?)\]\((.*?)\)", replace_image_path, content)`.

The scanner below implements exactly the semantics of that regex under
Python's leftmost / non-greedy matching discipline:

* `scanAlt s`  : after having consumed `![`, find the shortest prefix
  (the alt text, in which `.` forbids a newline) that is followed by the
  two characters `](`; return the alt text and the remainder after `](`.
* `scanPath s` : find the shortest newline-free prefix followed by `)`.

Backtracking note: if the first `](` pair on the line is not followed by
a `)` before the next newline, then no later pair on that line is either
(the candidate region of a later pair is a suffix of the first one), and
a pair on a later line is unreachable because the alt text cannot contain
a newline.  Hence taking the first pair and failing is faithful to the
backtracking regex engine. -/

def scanAlt : List Char → Option (List Char × List Char)
  | [] => none
  | c :: rest =>
    if c = '\n' then none
    else if c = ']' ∧ rest.head? = some '(' then some ([], rest.tail)
    else (scanAlt rest).map (fun p => (c :: p.1, p.2))

def scanPath : List Char → Option (List Char × List Char)
  | [] => none
  | c :: rest =>
    if c = '\n' then none
    else if c = ')' then some ([], rest)
    else (scanPath rest).map (fun p => (c :: p.1, p.2))

/-- Attempt a match of `(.*?)\]\((.*?)\)` at the current position (the
position right after a literal `![`).  Returns `(alt, path, rest)`. -/
def tryMatch (s : List Char) : Option (List Char × List Char × List Char) :=
  match scanAlt s with
  | none => none
  | some (a, r) =>
    match scanPath r with
    | none => none
    | some (p, r2) => some (a, p, r2)

/-- Model of `os.path.basename`: the part of the path after the last '/'. -/
def basenameAux (acc : List Char) : List Char → List Char
  | [] => acc.reverse
  | c :: rest => if c = '/' then basenameAux [] rest else basenameAux (c :: acc) rest

def basename (p : List Char) : List Char := basenameAux [] p

/-- The rewritten image reference `![{alt_text}](../images/{image_filename})`
(translator.py:113). -/
def mkRep (alt path : List Char) : List Char :=
  tl "![" ++ alt ++ tl "](../images/" ++ basename path ++ tl ")"

/-- Fuelled scanner for `re.sub`: try a match at every position from left to
right; on a match emit the replacement and continue after the matched text.
The fuel only needs to cover the input length; `rewriteImages` below applies
it with exactly that fuel. -/
def rwFuel : Nat → List Char → List Char
  | 0, s => s
  | _ + 1, [] => []
  | _ + 1, [c] => [c]
  | f + 1, c :: d :: rest =>
    if c = '!' ∧ d = '[' then
      match tryMatch rest with
      | some (alt, path, r) => mkRep alt path ++ rwFuel f r
      | none => c :: rwFuel f (d :: rest)
    else c :: rwFuel f (d :: rest)

/-- The pure text transformation performed by `process_markdown_images`:
every image reference is rewritten to the fixed `../images/<basename>` form.
The rewriting does not depend on the filesystem (the existence check only
guards the copy). -/
def rewriteImages (s : List Char) : List Char := rwFuel s.length s

/-- Copy effect of one match: `shutil.copy2(original_image_path,
self.dirs["images"] / image_filename)` guarded by
`original_image_path.exists()` (translator.py:108-110), where
`original_image_path = Path(self.file_path).parent / image_path`. -/
def copyEffs (fs : List Char → Bool) (parent imagesDir path : List Char) : List Eff :=
  if fs (parent ++ '/' :: path) then
    [.copyE (parent ++ '/' :: path) (imagesDir ++ '/' :: basename path)]
  else []

/-- Fuelled combined model of `process_markdown_images`: the copy effects
(in match order) together with the rewritten text. -/
def pmiFuel (fs : List Char → Bool) (parent imagesDir : List Char) :
    Nat → List Char → List Eff × List Char
  | 0, s => ([], s)
  | _ + 1, [] => ([], [])
  | _ + 1, [c] => ([], [c])
  | f + 1, c :: d :: rest =>
    if c = '!' ∧ d = '[' then
      match tryMatch rest with
      | some (alt, path, r) =>
        let p := pmiFuel fs parent imagesDir f r
        (copyEffs fs parent imagesDir path ++ p.1, mkRep alt path ++ p.2)
      | none =>
        let p := pmiFuel fs parent imagesDir f (d :: rest)
        (p.1, c :: p.2)
    else
      let p := pmiFuel fs parent imagesDir f (d :: rest)
      (p.1, c :: p.2)

/-- `DocumentProcessor.process_markdown_images` (translator.py:96-115):
effects (image copies) and rewritten content. -/
def process_markdown_images (fs : List Char → Bool) (parent imagesDir content : List Char) :
    List Eff × List Char :=
  pmiFuel fs parent imagesDir content.length content

/-! ### Predicates used to reason about the scanner -/

/-- Is there a `)` before the first newline? (Mirrors `scanPath` success.) -/
def parenInLine : List Char → Bool
  | [] => false
  | c :: rest => if c = '\n' then false else if c = ')' then true else parenInLine rest

/-- Is there a `](` pair before the first newline, followed by a `)` before
the next newline?  (Mirrors `tryMatch` success.) -/
def viable : List Char → Bool
  | [] => false
  | c :: rest =>
    if c = '\n' then false
    else if c = ']' ∧ rest.head? = some '(' then parenInLine rest.tail
    else viable rest

/-! ### Chapter splitting (translator.py:87-94)

`re.split(r"\n(?=# )", content.strip())` splits at every newline that is
immediately followed by `"# "` (the newline is consumed, the marker stays
with the following segment); if that yields a single segment the split is
retried on the same stripped content with `"## "`. -/

/-- ASCII model of Python `str.strip`'s whitespace class. -/
def isSpace (c : Char) : Bool :=
  if c = ' ' then true else if c = '\t' then true else if c = '\n' then true
  else if c = '\r' then true else if c = '\x0b' then true else if c = '\x0c' then true
  else false

def strip (s : List Char) : List Char :=
  ((s.dropWhile isSpace).reverse.dropWhile isSpace).reverse

/-- Does `m` occur as a leading segment of `s`? -/
def leadsWith : List Char → List Char → Bool
  | [], _ => true
  | _ :: _, [] => false
  | c :: m, d :: s => if c = d then leadsWith m s else false

def splitAux (m : List Char) : List Char → List Char → List (List Char)
  | acc, [] => [acc.reverse]
  | acc, c :: rest =>
    if c = '\n' ∧ leadsWith m rest then acc.reverse :: splitAux m [] rest
    else splitAux m (c :: acc) rest

/-- `re.split("\n(?=" + m + ")", s)` for a plain marker string `m`. -/
def splitOnMarker (m s : List Char) : List (List Char) := splitAux m [] s

/-- `DocumentProcessor.split_markdown_into_chapters` (translator.py:87-94). -/
def split_markdown_into_chapters (content : List Char) : List (List Char) :=
  let s := strip content
  let chapters := splitOnMarker (tl "# ") s
  if chapters.length = 1 then splitOnMarker (tl "## ") s else chapters

/-- Number of split boundaries: newlines immediately followed by the marker. -/
def boundaryCount (m : List Char) : List Char → Nat
  | [] => 0
  | c :: rest =>
    (if c = '\n' ∧ leadsWith m rest then 1 else 0) + boundaryCount m rest

/-- Number of marker lines: occurrences of the marker at the start of the
text or right after a newline. -/
def markerCount (m s : List Char) : Nat :=
  (if leadsWith m s then 1 else 0) + boundaryCount m s

/-! ### Directory layout (translator.py:22-32) -/

/-- Run parameters of a `DocumentProcessor` instance: `file_path` split into
parent directory, stem and suffix, plus language and mode. -/
structure Proc where
  parentDir : List Char
  stem : List Char
  suffix : List Char
  language : List Char
  test_mode : Bool

/-- `self.file_path.parent / self.file_path.stem`. -/
def base_dir (P : Proc) : List Char := P.parentDir ++ '/' :: P.stem

/-- `self.language[:3].lower()`: first three characters, lowercased. -/
def langCode (language : List Char) : List Char := (language.take 3).map Char.toLower

structure Dirs where
  original : List Char
  translated : List Char
  images : List Char

/-- `DocumentProcessor.create_directory_structure` (translator.py:22-32):
the three subdirectories of the layout. -/
def create_directory_structure (P : Proc) : Dirs :=
  { original := base_dir P ++ tl "/original"
    translated := base_dir P ++ '/' :: langCode P.language
    images := base_dir P ++ tl "/images" }

/-- The `mkdir(parents=True, exist_ok=True)` calls, in dict insertion order. -/
def dirEffects (P : Proc) : List Eff :=
  [.mkdirE (create_directory_structure P).original,
   .mkdirE (create_directory_structure P).translated,
   .mkdirE (create_directory_structure P).images]

/-! ### Translation client (translator.py:117-137) -/

/-- The prompt sent to `ollama.chat` (translator.py:125-129). -/
def translate_prompt (language content : List Char) : List Char :=
  tl "Translate the following text to " ++ language ++
    tl ". Preserve all markdown formatting, including headers (#), bold (**), italic (*), links, and images. Provide only the translation without explanations or notes:\n\n"
    ++ content

/-- `DocumentProcessor.translate_chapter`: one blocking oracle call; on an
exception it prints `Translation error: {e}` and returns `None`. -/
def translate_chapter (oracle : List Char → Except (List Char) (List Char))
    (language content : List Char) : List Eff × Option (List Char) :=
  match oracle (translate_prompt language content) with
  | .ok t => ([], some t)
  | .error e => ([.printE (tl "Translation error: " ++ e)], none)

/-! ### Chapter processing (translator.py:139-168) -/

/-- `f"chapter_{i:02d}.md"`: zero-padded to two digits, wider if needed. -/
def pad2 (i : Nat) : List Char :=
  if i < 10 then '0' :: (Nat.repr i).data else (Nat.repr i).data

def chapter_filename (i : Nat) : List Char := tl "chapter_" ++ pad2 i ++ tl ".md"

/-- Test-mode display of a translated chapter (translator.py:159-163). -/
def displayEffs (i : Nat) (t : List Char) : List Eff :=
  [.printE (tl "\nChapter " ++ (Nat.repr i).data ++ tl " translation:"),
   .printE (List.replicate 40 '-'),
   .printE t,
   .printE (List.replicate 40 '-')]

/-- One iteration of the loop in `process_chapters` for chapter ordinal `i`:
relocate images on the original, write it unless in test mode, announce,
translate, and if the result is truthy (non-`None` and non-empty) relocate
images on it and either display it (test mode) or write it. -/
def chapterEffs (P : Proc) (fs : List Char → Bool)
    (oracle : List Char → Except (List Char) (List Char)) (i : Nat) (chapter : List Char) :
    List Eff :=
  (process_markdown_images fs P.parentDir (create_directory_structure P).images chapter).1
    ++ (if P.test_mode then []
        else [.writeE ((create_directory_structure P).original ++ '/' :: chapter_filename i)
               (process_markdown_images fs P.parentDir
                 (create_directory_structure P).images chapter).2])
    ++ [.printE (tl "Translating chapter " ++ (Nat.repr i).data ++ tl "...")]
    ++ (translate_chapter oracle P.language chapter).1
    ++ (match (translate_chapter oracle P.language chapter).2 with
        | some t =>
          if t = [] then []
          else
            (process_markdown_images fs P.parentDir (create_directory_structure P).images t).1
              ++ (if P.test_mode
                  then displayEffs i (process_markdown_images fs P.parentDir
                         (create_directory_structure P).images t).2
                  else [.writeE ((create_directory_structure P).translated ++ '/' :: chapter_filename i)
                         (process_markdown_images fs P.parentDir
                           (create_directory_structure P).images t).2])
        | none => [])

/-- `DocumentProcessor.process_chapters` (translator.py:139-168), starting
at ordinal `i` (the pipeline calls it with `i = 1`). -/
def process_chapters (P : Proc) (fs : List Char → Bool)
    (oracle : List Char → Except (List Char) (List Char)) :
    Nat → List (List Char) → List Eff
  | _, [] => []
  | i, ch :: rest =>
    chapterEffs P fs oracle i ch ++ process_chapters P fs oracle (i + 1) rest

/-! ### Page-oriented format adapter (translator.py:34-65)

`fitz` documents are modelled by the extracted text of each page and the
table of contents (`get_toc()` entries `(level, title, page)` with 1-based
start pages; only documents whose outline entries point at existing pages
are modelled, so `page` is a positive `Nat`). -/

structure PdfDoc where
  pages : List (List Char)
  toc : List (Nat × List Char × Nat)

def concatAll : List (List Char) → List Char
  | [] => []
  | x :: xs => x ++ concatAll xs

/-- `for pg in range(start_page, end_page): text += doc[pg].get_text()`:
`none` models the `IndexError` path (caught by the surrounding `except`). -/
def getPages (pages : List (List Char)) : List Nat → Option (List Char)
  | [] => some []
  | i :: rest =>
    match pages.get? i with
    | some t => (getPages pages rest).map (fun acc => t ++ acc)
    | none => none

def pageRange (start stop : Nat) : List Nat := List.range' start (stop - start)

/-- The bookmark loop of `pdf_to_markdown` (translator.py:43-53):
`start_page = page - 1`; `end_page` is the next entry's `page - 1`, or
`doc.page_count` for the last entry; the chapter is
`f"# {title}\n\n{text}"`. -/
def tocChapters (pages : List (List Char)) :
    List (Nat × List Char × Nat) → Option (List (List Char))
  | [] => some []
  | e :: rest =>
    let stop := match rest with
      | [] => pages.length
      | e2 :: _ => e2.2.2 - 1
    match getPages pages (pageRange (e.2.2 - 1) stop) with
    | none => none
    | some text =>
      match tocChapters pages rest with
      | none => none
      | some tail => some ((tl "# " ++ e.2.1 ++ tl "\n\n" ++ text) :: tail)

/-- `DocumentProcessor.pdf_to_markdown` (translator.py:34-65): with a
table of contents, one chapter per entry; otherwise a single chapter holding
the concatenated text of all pages.  `none` models the `except` branch
(which prints and returns `None`). -/
def pdf_to_markdown (doc : PdfDoc) : Option (List (List Char)) :=
  if doc.toc = [] then some [concatAll doc.pages] else tocChapters doc.pages doc.toc

/-- Modelled from the spec (section 4.1, page-oriented adapter), as the
refinement target for the code-side `pdf_to_markdown`: each outline entry
becomes one chapter whose body is the concatenated extracted text of the
pages from that entry's start page to the page preceding the next entry's
start (document end for the last entry), with the title synthesized as a
top-level heading; with no outline, one chapter with all extracted text. -/
def specTocChapters (pages : List (List Char)) :
    List (Nat × List Char × Nat) → List (List Char)
  | [] => []
  | e :: rest =>
    let lastIncl := match rest with
      | [] => pages.length
      | e2 :: _ => e2.2.2 - 1
    (tl "# " ++ e.2.1 ++ tl "\n\n"
        ++ concatAll ((pages.drop (e.2.2 - 1)).take (lastIncl + 1 - e.2.2)))
      :: specTocChapters pages rest

def specPdfChapters (doc : PdfDoc) : List (List Char) :=
  if doc.toc = [] then [concatAll doc.pages] else specTocChapters doc.pages doc.toc

/-! ### Orchestrator (translator.py:170-187) -/

/-- `DocumentProcessor.process`: create the directory structure, then
dispatch on the lowercased suffix; `.md`/`.txt` content is read and split;
an unknown suffix prints `Unsupported file type: {ext}` and returns.
`er` is the black-box result of `epub_to_markdown` (`none`: the library
threw and the error branch printed).  A falsy chapter value (`None` or an
empty list) skips `process_chapters`. -/
def process (P : Proc) (fs : List Char → Bool)
    (oracle : List Char → Except (List Char) (List Char))
    (doc : PdfDoc) (er : Option (List (List Char))) (content : List Char) : List Eff :=
  dirEffects P ++
    (if P.suffix.map Char.toLower = tl ".pdf" then
      match pdf_to_markdown doc with
      | some chapters =>
        if chapters = [] then [] else process_chapters P fs oracle 1 chapters
      | none => [.printE (tl "Error processing PDF")]
    else if P.suffix.map Char.toLower = tl ".epub" then
      match er with
      | some chapters =>
        if chapters = [] then [] else process_chapters P fs oracle 1 chapters
      | none => [.printE (tl "Error processing EPUB")]
    else if P.suffix.map Char.toLower = tl ".md" ∨ P.suffix.map Char.toLower = tl ".txt" then
      let chapters := split_markdown_into_chapters content
      if chapters = [] then [] else process_chapters P fs oracle 1 chapters
    else [.printE (tl "Unsupported file type: " ++ P.suffix.map Char.toLower)])

/-! ### Effect classifiers -/

def isWrite : Eff → Bool
  | .writeE _ _ => true
  | _ => false

/-- Is this effect a chapter write under the translated-chapters
subdirectory of the layout? -/
def isTransWrite (P : Proc) : Eff → Bool
  | .writeE path _ => leadsWith ((create_directory_structure P).translated ++ ['/']) path
  | _ => false

/-! ## Scanner lemmas -/

theorem scanAlt_cons (c : Char) (rest : List Char) :
    scanAlt (c :: rest) =
      if c = '\n' then none
      else if c = ']' ∧ rest.head? = some '(' then some ([], rest.tail)
      else (scanAlt rest).map (fun p => (c :: p.1, p.2)) := rfl

theorem scanPath_cons (c : Char) (rest : List Char) :
    scanPath (c :: rest) =
      if c = '\n' then none
      else if c = ')' then some ([], rest)
      else (scanPath rest).map (fun p => (c :: p.1, p.2)) := rfl

theorem scanAlt_length : ∀ s a r, scanAlt s = some (a, r) → a.length + 2 + r.length = s.length := by
  intro s
  induction s with
  | nil => intro a r h; simp [scanAlt] at h
  | cons c rest ih =>
    intro a r h
    rw [scanAlt_cons] at h
    split at h
    · simp at h
    · split at h
      · next hc =>
        injection h with h2
        injection h2 with e1 e2
        subst e1; subst e2
        cases rest with
        | nil => simp at hc
        | cons d t => simp; omega
      · cases hs : scanAlt rest with
        | none => simp [hs] at h
        | some p =>
          simp only [hs, Option.map_some'] at h
          injection h with h2
          injection h2 with e1 e2
          subst e1; subst e2
          have := ih p.1 p.2 (by rw [hs])
          simp; omega

theorem scanPath_length : ∀ s p r, scanPath s = some (p, r) → p.length + 1 + r.length = s.length := by
  intro s
  induction s with
  | nil => intro p r h; simp [scanPath] at h
  | cons c rest ih =>
    intro p r h
    rw [scanPath_cons] at h
    split at h
    · simp at h
    · split at h
      · injection h with h2
        injection h2 with e1 e2
        subst e1; subst e2
        simp [Nat.add_comm]
      · cases hs : scanPath rest with
        | none => simp [hs] at h
        | some q =>
          simp only [hs, Option.map_some'] at h
          injection h with h2
          injection h2 with e1 e2
          subst e1; subst e2
          have := ih q.1 q.2 (by rw [hs])
          simp; omega

theorem tryMatch_parts : ∀ s alt path r, tryMatch s = some (alt, path, r) →
    ∃ r1, scanAlt s = some (alt, r1) ∧ scanPath r1 = some (path, r) := by
  intro s alt path r h
  unfold tryMatch at h
  cases ha : scanAlt s with
  | none => rw [ha] at h; simp at h
  | some q =>
    obtain ⟨a1, r1⟩ := q
    rw [ha] at h
    dsimp only at h
    cases hp : scanPath r1 with
    | none => rw [hp] at h; simp at h
    | some w =>
      obtain ⟨p1, r2⟩ := w
      rw [hp] at h
      dsimp only at h
      injection h with h2
      injection h2 with e1 h3
      injection h3 with e2 e3
      subst e1; subst e2; subst e3
      exact ⟨r1, rfl, hp⟩

theorem tryMatch_length : ∀ s alt path r, tryMatch s = some (alt, path, r) →
    alt.length + path.length + 3 + r.length = s.length := by
  intro s alt path r h
  obtain ⟨r1, ha, hp⟩ := tryMatch_parts s alt path r h
  have l1 := scanAlt_length s alt r1 ha
  have l2 := scanPath_length r1 path r hp
  omega

theorem rwFuel_congr : ∀ f g s, s.length ≤ f → s.length ≤ g → rwFuel f s = rwFuel g s := by
  intro f
  induction f with
  | zero =>
    intro g s hf _
    have : s = [] := List.length_eq_zero.mp (Nat.le_zero.mp hf)
    subst this
    cases g <;> rfl
  | succ f ih =>
    intro g s hf hg
    match s, g with
    | [], g => cases g <;> rfl
    | [c], g =>
      cases g with
      | zero => rfl
      | succ g => rfl
    | c :: d :: rest, 0 => simp at hg
    | c :: d :: rest, g + 1 =>
      show rwFuel (f + 1) (c :: d :: rest) = rwFuel (g + 1) (c :: d :: rest)
      simp only [rwFuel]
      split
      · cases hm : tryMatch rest with
        | none =>
          have : (d :: rest).length ≤ f := by simp at hf ⊢; omega
          have hg2 : (d :: rest).length ≤ g := by simp at hg ⊢; omega
          rw [ih g (d :: rest) this hg2]
        | some w =>
          obtain ⟨alt, path, r⟩ := w
          have hl := tryMatch_length rest alt path r hm
          have h1 : r.length ≤ f := by simp at hf; omega
          have h2 : r.length ≤ g := by simp at hg; omega
          show mkRep alt path ++ rwFuel f r = mkRep alt path ++ rwFuel g r
          rw [ih g r h1 h2]
      · have h1 : (d :: rest).length ≤ f := by simp at hf ⊢; omega
        have h2 : (d :: rest).length ≤ g := by simp at hg ⊢; omega
        rw [ih g (d :: rest) h1 h2]

theorem rewriteImages_two (c d : Char) (rest : List Char) :
    rewriteImages (c :: d :: rest) =
      if c = '!' ∧ d = '[' then
        match tryMatch rest with
        | some (alt, path, r) => mkRep alt path ++ rewriteImages r
        | none => c :: rewriteImages (d :: rest)
      else c :: rewriteImages (d :: rest) := by
  show rwFuel (rest.length + 1 + 1) (c :: d :: rest) = _
  simp only [rwFuel]
  split
  · cases hm : tryMatch rest with
    | none => rfl
    | some w =>
      obtain ⟨alt, path, r⟩ := w
      have hl := tryMatch_length rest alt path r hm
      show mkRep alt path ++ rwFuel (rest.length + 1) r = mkRep alt path ++ rewriteImages r
      unfold rewriteImages
      rw [rwFuel_congr (rest.length + 1) r.length r (by omega) (by omega)]
  · rfl

theorem rewriteImages_cons_ne (c : Char) (t : List Char) (hc : c ≠ '!') :
    rewriteImages (c :: t) = c :: rewriteImages t := by
  cases t with
  | nil => rfl
  | cons d rest => rw [rewriteImages_two]; simp [hc]

theorem rwFuel_head : ∀ f s, (rwFuel f s).head? = s.head? := by
  intro f
  induction f with
  | zero => intro s; rfl
  | succ f ih =>
    intro s
    match s with
    | [] => rfl
    | [c] => rfl
    | c :: d :: rest =>
      simp only [rwFuel]
      split
      · next hcd =>
        cases hm : tryMatch rest with
        | none => rfl
        | some w =>
          obtain ⟨alt, path, r⟩ := w
          simp [mkRep, tl, hcd.1]
      · rfl

theorem rewriteImages_head (s : List Char) : (rewriteImages s).head? = s.head? :=
  rwFuel_head s.length s

theorem scanAlt_sound : ∀ s a r, scanAlt s = some (a, r) → s = a ++ ']' :: '(' :: r := by
  intro s
  induction s with
  | nil => intro a r h; simp [scanAlt] at h
  | cons c rest ih =>
    intro a r h
    rw [scanAlt_cons] at h
    split at h
    · simp at h
    · split at h
      · next hc =>
        injection h with h2
        injection h2 with e1 e2
        subst e1; subst e2
        cases rest with
        | nil => simp at hc
        | cons d t =>
          obtain ⟨hc1, hc2⟩ := hc
          simp at hc2
          subst hc1; subst hc2
          rfl
      · cases hs : scanAlt rest with
        | none => simp [hs] at h
        | some p =>
          simp only [hs, Option.map_some'] at h
          injection h with h2
          injection h2 with e1 e2
          subst e1; subst e2
          have := ih p.1 p.2 (by rw [hs])
          rw [this]
          rfl

theorem scanAlt_nl : ∀ s a r, scanAlt s = some (a, r) → '\n' ∉ a := by
  intro s
  induction s with
  | nil => intro a r h; simp [scanAlt] at h
  | cons c rest ih =>
    intro a r h
    rw [scanAlt_cons] at h
    split at h
    · simp at h
    · split at h
      · injection h with h2
        injection h2 with e1 e2
        subst e1
        simp
      · next hnl _ =>
        cases hs : scanAlt rest with
        | none => simp [hs] at h
        | some p =>
          simp only [hs, Option.map_some'] at h
          injection h with h2
          injection h2 with e1 e2
          subst e1
          intro hmem
          rcases List.mem_cons.mp hmem with h1 | h1
          · exact hnl h1.symm
          · exact ih p.1 p.2 (by rw [hs]) h1

theorem scanAlt_clean : ∀ s a r, scanAlt s = some (a, r) →
    ∀ t, scanAlt (a ++ ']' :: '(' :: t) = some (a, t) := by
  intro s
  induction s with
  | nil => intro a r h; simp [scanAlt] at h
  | cons c rest ih =>
    intro a r h t
    rw [scanAlt_cons] at h
    split at h
    · simp at h
    · split at h
      · injection h with h2
        injection h2 with e1 e2
        subst e1
        rw [List.nil_append, scanAlt_cons]
        simp
      · next hnl hp =>
        cases hs : scanAlt rest with
        | none => simp [hs] at h
        | some p =>
          simp only [hs, Option.map_some'] at h
          injection h with h2
          injection h2 with e1 e2
          subst e1; subst e2
          have ihp := ih p.1 p.2 (by rw [hs]) t
          rw [List.cons_append, scanAlt_cons]
          rw [if_neg hnl]
          have hnp : ¬(c = ']' ∧ (p.1 ++ ']' :: '(' :: t).head? = some '(') := by
            intro ⟨hc, hh⟩
            cases hq : p.1 with
            | nil => rw [hq] at hh; simp at hh
            | cons x xs =>
              rw [hq] at hh
              simp at hh
              apply hp
              refine ⟨hc, ?_⟩
              have hsound := scanAlt_sound rest p.1 p.2 (by rw [hs])
              rw [hsound, hq, hh]
              rfl
          rw [if_neg hnp, ihp]
          rfl

theorem scanPath_sound : ∀ s p r, scanPath s = some (p, r) → s = p ++ ')' :: r := by
  intro s
  induction s with
  | nil => intro p r h; simp [scanPath] at h
  | cons c rest ih =>
    intro p r h
    rw [scanPath_cons] at h
    split at h
    · simp at h
    · split at h
      · next hc =>
        injection h with h2
        injection h2 with e1 e2
        subst e1; subst e2
        subst hc
        rfl
      · cases hs : scanPath rest with
        | none => simp [hs] at h
        | some q =>
          simp only [hs, Option.map_some'] at h
          injection h with h2
          injection h2 with e1 e2
          subst e1; subst e2
          rw [ih q.1 q.2 (by rw [hs])]
          rfl

theorem scanPath_mem : ∀ s p r, scanPath s = some (p, r) → ')' ∉ p ∧ '\n' ∉ p := by
  intro s
  induction s with
  | nil => intro p r h; simp [scanPath] at h
  | cons c rest ih =>
    intro p r h
    rw [scanPath_cons] at h
    split at h
    · simp at h
    · split at h
      · injection h with h2
        injection h2 with e1 e2
        subst e1
        simp
      · next hnl hc =>
        cases hs : scanPath rest with
        | none => simp [hs] at h
        | some q =>
          simp only [hs, Option.map_some'] at h
          injection h with h2
          injection h2 with e1 e2
          subst e1
          have := ih q.1 q.2 (by rw [hs])
          constructor
          · intro hmem
            rcases List.mem_cons.mp hmem with h1 | h1
            · exact hc h1.symm
            · exact this.1 h1
          · intro hmem
            rcases List.mem_cons.mp hmem with h1 | h1
            · exact hnl h1.symm
            · exact this.2 h1

theorem scanPath_round : ∀ p, ')' ∉ p → '\n' ∉ p → ∀ t, scanPath (p ++ ')' :: t) = some (p, t) := by
  intro p
  induction p with
  | nil =>
    intro _ _ t
    rw [List.nil_append, scanPath_cons]
    simp
  | cons c cs ih =>
    intro hc hnl t
    rw [List.cons_append, scanPath_cons]
    have h1 : ¬(c = '\n') := fun h => hnl (by rw [← h]; exact List.mem_cons_self c cs)
    have h2 : ¬(c = ')') := fun h => hc (by rw [← h]; exact List.mem_cons_self c cs)
    rw [if_neg h1, if_neg h2]
    rw [ih (fun h => hc (List.mem_cons_of_mem c h)) (fun h => hnl (List.mem_cons_of_mem c h)) t]
    rfl

/-! ## Basename lemmas -/

theorem basenameAux_mem : ∀ p acc x, x ∈ basenameAux acc p → x ∈ acc ∨ x ∈ p := by
  intro p
  induction p with
  | nil => intro acc x h; simp [basenameAux] at h; exact Or.inl (List.mem_reverse.mp (by simpa using h))
  | cons c rest ih =>
    intro acc x h
    simp only [basenameAux] at h
    split at h
    · rcases ih [] x h with h1 | h1
      · simp at h1
      · exact Or.inr (List.mem_cons_of_mem c h1)
    · rcases ih (c :: acc) x h with h1 | h1
      · rcases List.mem_cons.mp h1 with h2 | h2
        · exact Or.inr (h2 ▸ List.mem_cons_self c rest)
        · exact Or.inl h2
      · exact Or.inr (List.mem_cons_of_mem c h1)

theorem basename_mem : ∀ p x, x ∈ basename p → x ∈ p := by
  intro p x h
  rcases basenameAux_mem p [] x h with h1 | h1
  · simp at h1
  · exact h1

theorem basenameAux_no_slash : ∀ p acc, '/' ∉ acc → '/' ∉ basenameAux acc p := by
  intro p
  induction p with
  | nil => intro acc hacc h; exact hacc (List.mem_reverse.mp (by simpa [basenameAux] using h))
  | cons c rest ih =>
    intro acc hacc h
    simp only [basenameAux] at h
    split at h
    · exact ih [] (by simp) h
    · next hc =>
      apply ih (c :: acc) ?_ h
      intro hm
      rcases List.mem_cons.mp hm with h1 | h1
      · exact hc h1.symm
      · exact hacc h1

theorem basename_no_slash (p : List Char) : '/' ∉ basename p :=
  basenameAux_no_slash p [] (by simp)

theorem basenameAux_id : ∀ p acc, '/' ∉ p → basenameAux acc p = acc.reverse ++ p := by
  intro p
  induction p with
  | nil => intro acc _; simp [basenameAux]
  | cons c rest ih =>
    intro acc hp
    simp only [basenameAux]
    rw [if_neg (fun h => hp (by rw [← h]; exact List.mem_cons_self c rest))]
    rw [ih (c :: acc) (fun h => hp (List.mem_cons_of_mem c h))]
    simp

theorem basename_img (b : List Char) : basename (tl "../images/" ++ b) = basename b := rfl

theorem basename_of_no_slash (b : List Char) (h : '/' ∉ b) : basename b = b := by
  unfold basename
  rw [basenameAux_id b [] h]
  rfl

/-! ## Line predicates and match failure -/

theorem parenInLine_cons (c : Char) (rest : List Char) :
    parenInLine (c :: rest) =
      if c = '\n' then false else if c = ')' then true else parenInLine rest := rfl

theorem viable_cons (c : Char) (rest : List Char) :
    viable (c :: rest) =
      if c = '\n' then false
      else if c = ']' ∧ rest.head? = some '(' then parenInLine rest.tail
      else viable rest := rfl

theorem scanPath_none_iff : ∀ s, scanPath s = none ↔ parenInLine s = false := by
  intro s
  induction s with
  | nil => simp [scanPath, parenInLine]
  | cons c rest ih =>
    rw [scanPath_cons, parenInLine_cons]
    by_cases h1 : c = '\n'
    · simp [h1]
    · by_cases h2 : c = ')'
      · simp [h1, h2]
      · simp [h1, h2, Option.map_eq_none', ih]

theorem tryMatch_none_iff : ∀ s, tryMatch s = none ↔ viable s = false := by
  intro s
  induction s with
  | nil => simp [tryMatch, scanAlt, viable]
  | cons c rest ih =>
    rw [viable_cons]
    unfold tryMatch
    rw [scanAlt_cons]
    by_cases h1 : c = '\n'
    · simp [h1]
    · by_cases h2 : c = ']' ∧ rest.head? = some '('
      · rw [if_neg h1, if_pos h2, if_neg h1, if_pos h2]
        show (match scanPath rest.tail with
              | none => none
              | some (p, r2) => some (([] : List Char), p, r2)) = none
            ↔ parenInLine rest.tail = false
        cases hp : scanPath rest.tail with
        | none =>
          exact ⟨fun _ => (scanPath_none_iff rest.tail).mp hp, fun _ => rfl⟩
        | some w =>
          obtain ⟨p, r2⟩ := w
          constructor
          · intro hcontra; simp at hcontra
          · intro hpar
            have h3 := (scanPath_none_iff rest.tail).mpr hpar
            rw [hp] at h3
            exact absurd h3 (by simp)
      · rw [if_neg h1, if_neg h2, if_neg h1, if_neg h2]
        unfold tryMatch at ih
        cases hs : scanAlt rest with
        | none =>
          rw [Option.map_none']
          rw [hs] at ih
          exact ⟨fun _ => ih.mp rfl, fun _ => rfl⟩
        | some q =>
          obtain ⟨a, r⟩ := q
          rw [Option.map_some']
          rw [hs] at ih
          have ih2 : (match scanPath r with
              | none => none
              | some (p, r2) => some (a, p, r2)) = none ↔ viable rest = false := ih
          show (match scanPath r with
              | none => none
              | some (p, r2) => some (c :: a, p, r2)) = none ↔ viable rest = false
          cases hp : scanPath r with
          | none =>
            rw [hp] at ih2
            exact ⟨fun _ => ih2.mp rfl, fun _ => rfl⟩
          | some w =>
            obtain ⟨p1, r2⟩ := w
            rw [hp] at ih2
            constructor
            · intro hcontra; simp at hcontra
            · intro hv
              have h4 := ih2.mpr hv
              simp at h4

theorem parenInLine_append_paren : ∀ l t, '\n' ∉ l → parenInLine (l ++ ')' :: t) = true := by
  intro l
  induction l with
  | nil => intro t _; simp [parenInLine_cons]
  | cons c cs ih =>
    intro t hnl
    rw [List.cons_append, parenInLine_cons]
    have h1 : ¬(c = '\n') := fun h => hnl (by rw [← h]; exact List.mem_cons_self c cs)
    rw [if_neg h1]
    by_cases h2 : c = ')'
    · rw [if_pos h2]
    · rw [if_neg h2]; exact ih t (fun h => hnl (List.mem_cons_of_mem c h))

theorem tryMatch_some_paren : ∀ s a p r, tryMatch s = some (a, p, r) → parenInLine s = true := by
  intro s a p r h
  obtain ⟨r1, ha, hp⟩ := tryMatch_parts s a p r h
  have hs1 := scanAlt_sound s a r1 ha
  have hs2 := scanPath_sound r1 p r hp
  have hnl_a := scanAlt_nl s a r1 ha
  have hnl_p := (scanPath_mem r1 p r hp).2
  rw [hs1, hs2]
  have hre : a ++ ']' :: '(' :: (p ++ ')' :: r) = (a ++ ']' :: '(' :: p) ++ ')' :: r := by simp
  rw [hre]
  apply parenInLine_append_paren
  intro hmem
  rcases List.mem_append.mp hmem with h1 | h1
  · exact hnl_a h1
  · rcases List.mem_cons.mp h1 with h2 | h2
    · exact absurd h2 (by decide)
    · rcases List.mem_cons.mp h2 with h3 | h3
      · exact absurd h3 (by decide)
      · exact hnl_p h3

theorem viable_of_match : ∀ s x, tryMatch s = some x → viable s = true := by
  intro s x h
  cases hb : viable s with
  | false =>
    have := (tryMatch_none_iff s).mpr hb
    rw [h] at this; simp at this
  | true => rfl

theorem parenInLine_other (c : Char) (t : List Char) (h1 : c ≠ '\n') (h2 : c ≠ ')') :
    parenInLine (c :: t) = parenInLine t := by
  rw [parenInLine_cons, if_neg h1, if_neg h2]

theorem viable_other (c : Char) (t : List Char) (h1 : c ≠ '\n')
    (h2 : ¬(c = ']' ∧ t.head? = some '(')) : viable (c :: t) = viable t := by
  rw [viable_cons, if_neg h1, if_neg h2]

theorem viable_pair (t : List Char) : viable (']' :: '(' :: t) = parenInLine t := by
  rw [viable_cons]
  simp

theorem parenInLine_rw : ∀ n s, s.length ≤ n → parenInLine s = false →
    parenInLine (rewriteImages s) = false := by
  intro n
  induction n with
  | zero =>
    intro s hl h
    have : s = [] := List.length_eq_zero.mp (Nat.le_zero.mp hl)
    subst this
    exact h
  | succ n ih =>
    intro s hl h
    match s with
    | [] => exact h
    | [c] => exact h
    | c :: d :: rest =>
      rw [rewriteImages_two]
      by_cases hcd : c = '!' ∧ d = '['
      · rw [if_pos hcd]
        obtain ⟨hc, hd⟩ := hcd
        subst hc; subst hd
        rw [parenInLine_other '!' _ (by decide) (by decide),
            parenInLine_other '[' _ (by decide) (by decide)] at h
        cases hm : tryMatch rest with
        | some w =>
          obtain ⟨alt, path, r⟩ := w
          exfalso
          have hp := tryMatch_some_paren rest alt path r hm
          rw [hp] at h
          exact Bool.noConfusion h
        | none =>
          rw [rewriteImages_cons_ne '[' rest (by decide)]
          rw [parenInLine_other '!' _ (by decide) (by decide),
              parenInLine_other '[' _ (by decide) (by decide)]
          have hr : rest.length ≤ n := by simp at hl; omega
          exact ih rest hr h
      · rw [if_neg hcd]
        by_cases hc1 : c = '\n'
        · rw [parenInLine_cons, if_pos hc1]
        · by_cases hc2 : c = ')'
          · exfalso
            rw [parenInLine_cons, if_neg hc1, if_pos hc2] at h
            exact Bool.noConfusion h
          · rw [parenInLine_other c _ hc1 hc2] at h
            rw [parenInLine_other c _ hc1 hc2]
            have hr : (d :: rest).length ≤ n := by simp at hl ⊢; omega
            exact ih (d :: rest) hr h

theorem viable_rw : ∀ n s, s.length ≤ n → viable s = false →
    viable (rewriteImages s) = false := by
  intro n
  induction n with
  | zero =>
    intro s hl h
    have : s = [] := List.length_eq_zero.mp (Nat.le_zero.mp hl)
    subst this
    exact h
  | succ n ih =>
    intro s hl h
    match s with
    | [] => exact h
    | [c] => exact h
    | c :: d :: rest =>
      rw [rewriteImages_two]
      by_cases hcd : c = '!' ∧ d = '['
      · rw [if_pos hcd]
        obtain ⟨hc, hd⟩ := hcd
        subst hc; subst hd
        rw [viable_other '!' _ (by decide) (by simp),
            viable_other '[' _ (by decide) (by simp)] at h
        cases hm : tryMatch rest with
        | some w =>
          obtain ⟨alt, path, r⟩ := w
          exfalso
          have hv := viable_of_match rest _ hm
          rw [hv] at h
          exact Bool.noConfusion h
        | none =>
          rw [rewriteImages_cons_ne '[' rest (by decide)]
          rw [viable_other '!' _ (by decide) (by simp),
              viable_other '[' _ (by decide) (by simp)]
          have hr : rest.length ≤ n := by simp at hl; omega
          exact ih rest hr h
      · rw [if_neg hcd]
        by_cases hc1 : c = '\n'
        · rw [viable_cons, if_pos hc1]
        · by_cases hc2 : c = ']' ∧ d = '('
          · obtain ⟨hcc, hdd⟩ := hc2
            subst hcc; subst hdd
            rw [viable_pair] at h
            rw [rewriteImages_cons_ne '(' rest (by decide), viable_pair]
            have hr : rest.length ≤ n := by simp at hl; omega
            exact parenInLine_rw n rest hr h
          · have hp1 : ¬(c = ']' ∧ (d :: rest).head? = some '(') := by
              intro ⟨ha, hb⟩
              simp at hb
              exact hc2 ⟨ha, hb⟩
            rw [viable_other c _ hc1 hp1] at h
            have hp2 : ¬(c = ']' ∧ (rewriteImages (d :: rest)).head? = some '(') := by
              intro ⟨ha, hb⟩
              rw [rewriteImages_head] at hb
              simp at hb
              exact hc2 ⟨ha, hb⟩
            rw [viable_other c _ hc1 hp2]
            have hr : (d :: rest).length ≤ n := by simp at hl ⊢; omega
            exact ih (d :: rest) hr h

theorem mkRep_append (alt path X : List Char) :
    mkRep alt path ++ X =
      '!' :: '[' :: (alt ++ ']' :: '(' ::
        ((tl "../images/" ++ basename path) ++ ')' :: X)) := by
  simp [mkRep, tl]

theorem rewriteImages_idem_aux : ∀ n s, s.length ≤ n →
    rewriteImages (rewriteImages s) = rewriteImages s := by
  intro n
  induction n with
  | zero =>
    intro s hl
    have : s = [] := List.length_eq_zero.mp (Nat.le_zero.mp hl)
    subst this; rfl
  | succ n ih =>
    intro s hl
    match s with
    | [] => rfl
    | [c] => rfl
    | c :: d :: rest =>
      rw [rewriteImages_two]
      by_cases hcd : c = '!' ∧ d = '['
      · rw [if_pos hcd]
        obtain ⟨hc, hd⟩ := hcd
        subst hc; subst hd
        cases hm : tryMatch rest with
        | some w =>
          obtain ⟨alt, path, r⟩ := w
          show rewriteImages (mkRep alt path ++ rewriteImages r) = mkRep alt path ++ rewriteImages r
          obtain ⟨r1, ha, hp⟩ := tryMatch_parts rest alt path r hm
          have hlen := tryMatch_length rest alt path r hm
          have hpm := scanPath_mem r1 path r hp
          have hnp1 : (')' : Char) ∉ tl "../images/" ++ basename path := by
            intro hmem
            rcases List.mem_append.mp hmem with h | h
            · exact absurd h (by decide)
            · exact hpm.1 (basename_mem path ')' h)
          have hnp2 : ('\n' : Char) ∉ tl "../images/" ++ basename path := by
            intro hmem
            rcases List.mem_append.mp hmem with h | h
            · exact absurd h (by decide)
            · exact hpm.2 (basename_mem path '\n' h)
          conv_lhs => rw [mkRep_append]
          rw [rewriteImages_two]
          rw [if_pos (⟨rfl, rfl⟩ : ('!' : Char) = '!' ∧ ('[' : Char) = '[')]
          have htm : tryMatch (alt ++ ']' :: '(' ::
              ((tl "../images/" ++ basename path) ++ ')' :: rewriteImages r))
              = some (alt, tl "../images/" ++ basename path, rewriteImages r) := by
            unfold tryMatch
            rw [scanAlt_clean rest alt r1 ha
              ((tl "../images/" ++ basename path) ++ ')' :: rewriteImages r)]
            show (match scanPath ((tl "../images/" ++ basename path) ++ ')' :: rewriteImages r) with
                 | none => none
                 | some (p, r2) => some (alt, p, r2))
                = some (alt, tl "../images/" ++ basename path, rewriteImages r)
            rw [scanPath_round (tl "../images/" ++ basename path) hnp1 hnp2 (rewriteImages r)]
          rw [htm]
          show mkRep alt (tl "../images/" ++ basename path) ++ rewriteImages (rewriteImages r)
              = mkRep alt path ++ rewriteImages r
          have hmk : mkRep alt (tl "../images/" ++ basename path) = mkRep alt path := by
            unfold mkRep
            rw [basename_img, basename_of_no_slash (basename path) (basename_no_slash path)]
          rw [hmk, ih r (by simp at hl; omega)]
        | none =>
          show rewriteImages ('!' :: rewriteImages ('[' :: rest)) = '!' :: rewriteImages ('[' :: rest)
          rw [rewriteImages_cons_ne '[' rest (by decide)]
          rw [rewriteImages_two]
          have htm2 : tryMatch (rewriteImages rest) = none := by
            apply (tryMatch_none_iff _).mpr
            apply viable_rw n rest (by simp at hl; omega)
            exact (tryMatch_none_iff rest).mp hm
          rw [if_pos (⟨rfl, rfl⟩ : ('!' : Char) = '!' ∧ ('[' : Char) = '['), htm2]
          show '!' :: rewriteImages ('[' :: rewriteImages rest) = '!' :: '[' :: rewriteImages rest
          rw [rewriteImages_cons_ne '[' _ (by decide)]
          rw [ih rest (by simp at hl; omega)]
      · rw [if_neg hcd]
        by_cases hcb : c = '!'
        · subst hcb
          have hd : d ≠ '[' := fun h => hcd ⟨rfl, h⟩
          have hh : (rewriteImages (d :: rest)).head? = some d := by
            rw [rewriteImages_head]; rfl
          cases hX : rewriteImages (d :: rest) with
          | nil => rw [hX] at hh; simp at hh
          | cons x xs =>
            rw [hX] at hh
            simp at hh
            subst hh
            rw [rewriteImages_two]
            rw [if_neg (fun hand => hd hand.2)]
            rw [← hX, ih (x :: rest) (by simp at hl ⊢; omega)]
        · rw [rewriteImages_cons_ne c _ hcb]
          rw [ih (d :: rest) (by simp at hl ⊢; omega)]

theorem rewriteImages_idempotent (s : List Char) :
    rewriteImages (rewriteImages s) = rewriteImages s :=
  rewriteImages_idem_aux s.length s le_rfl

/-! ## Effects of the asset relocator -/

theorem pmiFuel_text (fs : List Char → Bool) (parent imagesDir : List Char) :
    ∀ f s, (pmiFuel fs parent imagesDir f s).2 = rwFuel f s := by
  intro f
  induction f with
  | zero => intro s; rfl
  | succ f ih =>
    intro s
    match s with
    | [] => rfl
    | [c] => rfl
    | c :: d :: rest =>
      simp only [pmiFuel, rwFuel]
      split
      · cases hm : tryMatch rest with
        | none =>
          show c :: (pmiFuel fs parent imagesDir f (d :: rest)).2 = c :: rwFuel f (d :: rest)
          rw [ih (d :: rest)]
        | some w =>
          obtain ⟨alt, path, r⟩ := w
          show mkRep alt path ++ (pmiFuel fs parent imagesDir f r).2
              = mkRep alt path ++ rwFuel f r
          rw [ih r]
      · show c :: (pmiFuel fs parent imagesDir f (d :: rest)).2 = c :: rwFuel f (d :: rest)
        rw [ih (d :: rest)]

theorem process_markdown_images_text (fs : List Char → Bool) (parent imagesDir content : List Char) :
    (process_markdown_images fs parent imagesDir content).2 = rewriteImages content :=
  pmiFuel_text fs parent imagesDir content.length content

theorem pmiFuel_copies (fs : List Char → Bool) (parent imagesDir : List Char) :
    ∀ f s e, e ∈ (pmiFuel fs parent imagesDir f s).1 →
      ∃ src dst, e = Eff.copyE src dst ∧ fs src = true := by
  intro f
  induction f with
  | zero => intro s e he; simp [pmiFuel] at he
  | succ f ih =>
    intro s e he
    match s with
    | [] => simp [pmiFuel] at he
    | [c] => simp [pmiFuel] at he
    | c :: d :: rest =>
      simp only [pmiFuel] at he
      split at he
      · cases hm : tryMatch rest with
        | none =>
          rw [hm] at he
          exact ih (d :: rest) e he
        | some w =>
          obtain ⟨alt, path, r⟩ := w
          rw [hm] at he
          show ∃ src dst, e = Eff.copyE src dst ∧ fs src = true
          have he2 : e ∈ copyEffs fs parent imagesDir path ++ (pmiFuel fs parent imagesDir f r).1 := he
          rcases List.mem_append.mp he2 with h | h
          · unfold copyEffs at h
            split at h
            · next hfs =>
              rcases List.mem_singleton.mp h with rfl
              exact ⟨_, _, rfl, hfs⟩
            · simp at h
          · exact ih r e h
      · exact ih (d :: rest) e he

/-- C5: the Asset Relocator is idempotent on chapter text: applying
`process_markdown_images` to its own rewritten output returns the same
text (`relocate(relocate(x)) == relocate(x)`), for every filesystem and
every chapter body. -/
theorem C5_relocator_idempotent (fs : List Char → Bool) (parent imagesDir x : List Char) :
    (process_markdown_images fs parent imagesDir
        (process_markdown_images fs parent imagesDir x).2).2
      = (process_markdown_images fs parent imagesDir x).2 := by
  simp only [process_markdown_images_text]
  exact rewriteImages_idempotent x

/-- C7: the rewritten text never depends on the filesystem (a reference
whose resolved source is missing is still rewritten to
`../images/<basename>`, exactly as `rewriteImages` does), and every copy
effect the relocator emits has a source that exists; a missing source is
skipped, and relocation itself is a total function that cannot fail. -/
theorem C7_missing_asset (fs : List Char → Bool) (parent imagesDir s : List Char) :
    (process_markdown_images fs parent imagesDir s).2 = rewriteImages s
  ∧ ∀ e, e ∈ (process_markdown_images fs parent imagesDir s).1 →
      ∃ src dst, e = Eff.copyE src dst ∧ fs src = true := by
  constructor
  · exact process_markdown_images_text fs parent imagesDir s
  · exact pmiFuel_copies fs parent imagesDir s.length s

/-- C7 witness: on a chapter with one image reference and a filesystem where
only `base/img/pic.png` exists, the single emitted effect is the copy of that
existing file (and, concretely, the missing-file case emits no copy while
still rewriting). -/
theorem C7_missing_asset_witness :
    (∃ src dst,
        Eff.copyE (tl "base/img/pic.png") (tl "dst/pic.png")
          = Eff.copyE src dst
      ∧ (fun q => decide (q = tl "base/img/pic.png")) src = true)
  ∧ (process_markdown_images (fun _ => false) (tl "base") (tl "dst")
        (tl "![x](img/pic.png)")).1 = []
  ∧ (process_markdown_images (fun _ => false) (tl "base") (tl "dst")
        (tl "![x](img/pic.png)")).2 = tl "![x](../images/pic.png)" := by
  refine ⟨?_, by decide, by decide⟩
  exact (C7_missing_asset (fun q => decide (q = tl "base/img/pic.png"))
      (tl "base") (tl "dst") (tl "![x](img/pic.png)")).2
      (Eff.copyE (tl "base/img/pic.png") (tl "dst/pic.png")) (by decide)

/-! ## Chapter splitter lemmas -/

theorem splitAux_length (m : List Char) :
    ∀ s acc, (splitAux m acc s).length = boundaryCount m s + 1 := by
  intro s
  induction s with
  | nil => intro acc; simp [splitAux, boundaryCount]
  | cons c rest ih =>
    intro acc
    simp only [splitAux, boundaryCount]
    split
    · next h =>
      rw [List.length_cons, ih []]
      omega
    · next h =>
      rw [ih (c :: acc)]
      omega

theorem splitAux_no_boundary (m : List Char) :
    ∀ s acc, boundaryCount m s = 0 → splitAux m acc s = [acc.reverse ++ s] := by
  intro s
  induction s with
  | nil => intro acc _; simp [splitAux]
  | cons c rest ih =>
    intro acc h
    simp only [boundaryCount] at h
    simp only [splitAux]
    split
    · next hb => rw [if_pos hb] at h; omega
    · next hb =>
      rw [ih (c :: acc) (by omega)]
      simp

theorem splitOnMarker_length (m s : List Char) :
    (splitOnMarker m s).length = boundaryCount m s + 1 :=
  splitAux_length m s []

theorem splitOnMarker_no_boundary (m s : List Char) (h : boundaryCount m s = 0) :
    splitOnMarker m s = [s] := by
  unfold splitOnMarker
  rw [splitAux_no_boundary m s [] h]
  rfl

/-- C4 amended: the splitter works on the whitespace-stripped input.  If the
stripped text has no top-level and no second-level marker lines, the result
is exactly one chapter equal to the stripped input (not the raw input); if
the stripped text begins with a top-level marker and contains exactly two
top-level marker lines, the result is exactly two chapters.  (On raw text
with surrounding whitespace, or with content before the first marker, the
original claim's counts fail; see the counterexample.) -/
theorem C4_splitter (content : List Char) :
    (markerCount (tl "# ") (strip content) = 0 →
      markerCount (tl "## ") (strip content) = 0 →
      split_markdown_into_chapters content = [strip content])
  ∧ (markerCount (tl "# ") (strip content) = 2 →
      leadsWith (tl "# ") (strip content) = true →
      (split_markdown_into_chapters content).length = 2) := by
  constructor
  · intro h1 h2
    unfold split_markdown_into_chapters
    show (if (splitOnMarker (tl "# ") (strip content)).length = 1
          then splitOnMarker (tl "## ") (strip content)
          else splitOnMarker (tl "# ") (strip content)) = [strip content]
    unfold markerCount at h1 h2
    have b1 : boundaryCount (tl "# ") (strip content) = 0 := by omega
    have b2 : boundaryCount (tl "## ") (strip content) = 0 := by omega
    rw [splitOnMarker_no_boundary _ _ b1]
    simp [splitOnMarker_no_boundary _ _ b2]
  · intro h1 h2
    unfold split_markdown_into_chapters
    show (if (splitOnMarker (tl "# ") (strip content)).length = 1
          then splitOnMarker (tl "## ") (strip content)
          else splitOnMarker (tl "# ") (strip content)).length = 2
    unfold markerCount at h1
    rw [h2] at h1
    simp at h1
    have hlen : (splitOnMarker (tl "# ") (strip content)).length = 2 := by
      rw [splitOnMarker_length]; omega
    rw [if_neg (by omega : ¬(splitOnMarker (tl "# ") (strip content)).length = 1)]
    exact hlen

/-- C4 counterexample: both numeric consequences of the original claim
fail on the code.  First, `"hello\n"` has no heading markers, yet the
split is `["hello"]` (the stripped text), not one chapter equal to the raw
input — `split_markdown_into_chapters` strips the content before splitting
(translator.py:90).  Second, `"intro\nX# A\nX# B"` (writing `X#` for the
marker character) has exactly two top-level heading-marker lines, yet it
yields 3 chapters, not 2 — the content before the first marker becomes an
additional leading chapter, since the split boundaries are the newlines
preceding the markers. -/
theorem C4_counterexample :
    (markerCount (tl "# ") (tl "hello\n") = 0
      ∧ markerCount (tl "## ") (tl "hello\n") = 0
      ∧ split_markdown_into_chapters (tl "hello\n") ≠ [tl "hello\n"]
      ∧ split_markdown_into_chapters (tl "hello\n") = [tl "hello"])
  ∧ (markerCount (tl "# ") (tl "intro\n# A\n# B") = 2
      ∧ (split_markdown_into_chapters (tl "intro\n# A\n# B")).length ≠ 2
      ∧ split_markdown_into_chapters (tl "intro\n# A\n# B")
          = [tl "intro", tl "# A", tl "# B"]) := by
  refine ⟨⟨by decide, by decide, by decide, by decide⟩, by decide, by decide, by decide⟩

/-- C4 witness: a text beginning with a top-level marker and containing
exactly two top-level marker lines splits into exactly 2 chapters; a
marker-free text yields its stripped self as the single chapter. -/
theorem C4_splitter_witness :
    (split_markdown_into_chapters (tl "# A\nx\n# B\ny")).length = 2
  ∧ split_markdown_into_chapters (tl "plain text") = [strip (tl "plain text")] := by
  constructor
  · exact (C4_splitter (tl "# A\nx\n# B\ny")).2 (by decide) (by decide)
  · exact (C4_splitter (tl "plain text")).1 (by decide) (by decide)

/-! ## Language code and directory layout (C9) -/

/-- C9: the translated-chapters subdirectory is named by
`self.language[:3].lower()`: the lowercased first three characters of the
target language name, the entire lowercased name when it is shorter than
three characters; `"Italian"` gives `"ita"` and `"Fr"` gives `"fr"`. -/
theorem C9_language_code :
    (∀ P : Proc, (create_directory_structure P).translated
        = base_dir P ++ '/' :: langCode P.language)
  ∧ langCode (tl "Italian") = tl "ita"
  ∧ langCode (tl "Fr") = tl "fr"
  ∧ (∀ l : List Char, l.length < 3 → langCode l = l.map Char.toLower)
  ∧ (∀ l : List Char, langCode l = (l.map Char.toLower).take 3) := by
  refine ⟨fun P => rfl, by decide, by decide, ?_, ?_⟩
  · intro l hl
    unfold langCode
    rw [List.take_of_length_le (by omega)]
  · intro l
    unfold langCode
    rw [List.map_take]

/-- C9 witness: a two-character language name is lowercased whole. -/
theorem C9_language_code_witness :
    langCode (tl "Fr") = (tl "Fr").map Char.toLower :=
  C9_language_code.2.2.2.1 (tl "Fr") (by decide)

/-! ## Prefix and counting lemmas for materialized chapter files -/

theorem leadsWith_append_left : ∀ a p q : List Char, leadsWith (a ++ p) (a ++ q) = leadsWith p q := by
  intro a
  induction a with
  | nil => intro p q; rfl
  | cons c cs ih =>
    intro p q
    simp only [List.cons_append, leadsWith, if_pos]
    exact ih p q

theorem leadsWith_append_self : ∀ p t : List Char, leadsWith p (p ++ t) = true := by
  intro p
  induction p with
  | nil => intro t; rfl
  | cons c cs ih =>
    intro t
    simp only [List.cons_append, leadsWith, if_pos]
    exact ih t

theorem langCode_le (l : List Char) : (langCode l).length ≤ 3 := by
  unfold langCode
  rw [List.length_map, List.length_take]
  omega

theorem lang_slash (l3 : List Char) (hl : l3.length ≤ 3) (t : List Char) :
    leadsWith (l3 ++ ['/']) ('o' :: 'r' :: 'i' :: 'g' :: t) = false := by
  rcases l3 with _ | ⟨a, _ | ⟨b, _ | ⟨c, _ | ⟨d, rest⟩⟩⟩⟩
  · simp [leadsWith]
  · simp [leadsWith]
  · simp [leadsWith]
  · simp [leadsWith]
  · simp at hl

theorem isTransWrite_orig (P : Proc) (rest content : List Char) :
    isTransWrite P (.writeE ((create_directory_structure P).original ++ '/' :: rest) content)
      = false := by
  show leadsWith ((base_dir P ++ '/' :: langCode P.language) ++ ['/'])
      ((base_dir P ++ '/' :: tl "original") ++ '/' :: rest) = false
  rw [show (base_dir P ++ '/' :: langCode P.language) ++ ['/']
      = (base_dir P ++ ['/']) ++ (langCode P.language ++ ['/']) from by simp]
  rw [show (base_dir P ++ '/' :: tl "original") ++ '/' :: rest
      = (base_dir P ++ ['/']) ++ (tl "original" ++ '/' :: rest) from by simp]
  rw [leadsWith_append_left]
  exact lang_slash (langCode P.language) (langCode_le P.language)
    ('i' :: 'n' :: 'a' :: 'l' :: '/' :: rest)

theorem isTransWrite_trans (P : Proc) (rest content : List Char) :
    isTransWrite P (.writeE ((create_directory_structure P).translated ++ '/' :: rest) content)
      = true := by
  show leadsWith ((create_directory_structure P).translated ++ ['/'])
      ((create_directory_structure P).translated ++ '/' :: rest) = true
  rw [show (create_directory_structure P).translated ++ '/' :: rest
      = ((create_directory_structure P).translated ++ ['/']) ++ rest from
      List.append_cons (create_directory_structure P).translated '/' rest]
  exact leadsWith_append_self ((create_directory_structure P).translated ++ ['/']) rest

/-- `translate_chapter` on an oracle exception: print the error, return `None`. -/
theorem translate_chapter_error (oracle : List Char → Except (List Char) (List Char))
    (lang content e : List Char) (h : oracle (translate_prompt lang content) = .error e) :
    translate_chapter oracle lang content = ([.printE (tl "Translation error: " ++ e)], none) := by
  unfold translate_chapter
  rw [h]

/-- `translate_chapter` on a successful oracle call: no effect, return the text. -/
theorem translate_chapter_ok (oracle : List Char → Except (List Char) (List Char))
    (lang content t : List Char) (h : oracle (translate_prompt lang content) = .ok t) :
    translate_chapter oracle lang content = ([], some t) := by
  unfold translate_chapter
  rw [h]

theorem pmi_countP_zero (P : Proc) (fs : List Char → Bool) (parent imagesDir s : List Char) :
    ((process_markdown_images fs parent imagesDir s).1).countP (isTransWrite P) = 0 := by
  rw [List.countP_eq_zero]
  intro e he
  obtain ⟨src, dst, rfl, _⟩ := pmiFuel_copies fs parent imagesDir s.length s e he
  simp [isTransWrite]

theorem displayEffs_countP_zero (P : Proc) (i : Nat) (t : List Char) :
    (displayEffs i t).countP (isTransWrite P) = 0 := by
  simp [displayEffs, List.countP_cons, isTransWrite]

/-- On a failed oracle call the chapter's effects are: image copies for the
original body, the original write (persist mode only), the progress line,
and the error line — nothing else (no translated write, no display). -/
theorem chapterEffs_error (P : Proc) (fs : List Char → Bool)
    (oracle : List Char → Except (List Char) (List Char)) (i : Nat) (ch e : List Char)
    (h : oracle (translate_prompt P.language ch) = .error e) :
    chapterEffs P fs oracle i ch =
      (process_markdown_images fs P.parentDir (create_directory_structure P).images ch).1
        ++ (if P.test_mode then []
            else [.writeE ((create_directory_structure P).original ++ '/' :: chapter_filename i)
                   (process_markdown_images fs P.parentDir
                     (create_directory_structure P).images ch).2])
        ++ [.printE (tl "Translating chapter " ++ (Nat.repr i).data ++ tl "...")]
        ++ [.printE (tl "Translation error: " ++ e)] := by
  unfold chapterEffs
  rw [translate_chapter_error oracle P.language ch e h]
  simp

/-- On a successful oracle call returning the empty string (falsy in
Python), the chapter's effects stop after the progress line: no translated
write, no display, and no error line either. -/
theorem chapterEffs_empty (P : Proc) (fs : List Char → Bool)
    (oracle : List Char → Except (List Char) (List Char)) (i : Nat) (ch : List Char)
    (h : oracle (translate_prompt P.language ch) = .ok []) :
    chapterEffs P fs oracle i ch =
      (process_markdown_images fs P.parentDir (create_directory_structure P).images ch).1
        ++ (if P.test_mode then []
            else [.writeE ((create_directory_structure P).original ++ '/' :: chapter_filename i)
                   (process_markdown_images fs P.parentDir
                     (create_directory_structure P).images ch).2])
        ++ [.printE (tl "Translating chapter " ++ (Nat.repr i).data ++ tl "...")] := by
  unfold chapterEffs
  rw [translate_chapter_ok oracle P.language ch [] h]
  simp

/-- On a successful oracle call returning non-empty text the chapter's
effects additionally contain the relocation of the translated body and
either its display (test mode) or its write under the translated directory. -/
theorem chapterEffs_ok (P : Proc) (fs : List Char → Bool)
    (oracle : List Char → Except (List Char) (List Char)) (i : Nat) (ch t : List Char)
    (h : oracle (translate_prompt P.language ch) = .ok t) (ht : t ≠ []) :
    chapterEffs P fs oracle i ch =
      (process_markdown_images fs P.parentDir (create_directory_structure P).images ch).1
        ++ (if P.test_mode then []
            else [.writeE ((create_directory_structure P).original ++ '/' :: chapter_filename i)
                   (process_markdown_images fs P.parentDir
                     (create_directory_structure P).images ch).2])
        ++ [.printE (tl "Translating chapter " ++ (Nat.repr i).data ++ tl "...")]
        ++ ((process_markdown_images fs P.parentDir (create_directory_structure P).images t).1
            ++ (if P.test_mode
                then displayEffs i (process_markdown_images fs P.parentDir
                       (create_directory_structure P).images t).2
                else [.writeE ((create_directory_structure P).translated ++ '/' :: chapter_filename i)
                       (process_markdown_images fs P.parentDir
                         (create_directory_structure P).images t).2])) := by
  unfold chapterEffs
  rw [translate_chapter_ok oracle P.language ch t h]
  simp [ht]

/-- Each chapter materializes at most one file under the translated
directory: the original-chapter write never counts (its path is under
`original/`, whose name cannot extend a 3-character language code),
copies, prints and displays never count, and the translated write counts
once. -/
theorem chapterEffs_countP (P : Proc) (fs : List Char → Bool)
    (oracle : List Char → Except (List Char) (List Char)) (i : Nat) (ch : List Char) :
    (chapterEffs P fs oracle i ch).countP (isTransWrite P) ≤ 1 := by
  cases ho : oracle (translate_prompt P.language ch) with
  | error e =>
    rw [chapterEffs_error P fs oracle i ch e ho]
    simp only [List.countP_append]
    rw [pmi_countP_zero]
    have h2 : (if P.test_mode then []
        else [Eff.writeE ((create_directory_structure P).original ++ '/' :: chapter_filename i)
               (process_markdown_images fs P.parentDir
                 (create_directory_structure P).images ch).2]).countP (isTransWrite P) = 0 := by
      split
      · rfl
      · simp [List.countP_cons, isTransWrite_orig]
    rw [h2]
    simp [List.countP_cons, isTransWrite]
  | ok t =>
    by_cases ht : t = []
    · subst ht
      rw [chapterEffs_empty P fs oracle i ch ho]
      simp only [List.countP_append]
      rw [pmi_countP_zero]
      have h2 : (if P.test_mode then []
          else [Eff.writeE ((create_directory_structure P).original ++ '/' :: chapter_filename i)
                 (process_markdown_images fs P.parentDir
                   (create_directory_structure P).images ch).2]).countP (isTransWrite P) = 0 := by
        split
        · rfl
        · simp [List.countP_cons, isTransWrite_orig]
      rw [h2]
      simp [List.countP_cons, isTransWrite]
    · rw [chapterEffs_ok P fs oracle i ch t ho ht]
      simp only [List.countP_append]
      rw [pmi_countP_zero, pmi_countP_zero]
      have h2 : (if P.test_mode then []
          else [Eff.writeE ((create_directory_structure P).original ++ '/' :: chapter_filename i)
                 (process_markdown_images fs P.parentDir
                   (create_directory_structure P).images ch).2]).countP (isTransWrite P) = 0 := by
        split
        · rfl
        · simp [List.countP_cons, isTransWrite_orig]
      rw [h2]
      have h3 : (if P.test_mode
          then displayEffs i (process_markdown_images fs P.parentDir
                 (create_directory_structure P).images t).2
          else [Eff.writeE ((create_directory_structure P).translated ++ '/' :: chapter_filename i)
                 (process_markdown_images fs P.parentDir
                   (create_directory_structure P).images t).2]).countP (isTransWrite P) ≤ 1 := by
        split
        · rw [displayEffs_countP_zero]; omega
        · simp [List.countP_cons, isTransWrite_trans]
      simp only [List.countP_cons, List.countP_nil]
      simp [isTransWrite] at h3 ⊢
      omega

/-- C3 amended: for every run, (a) the number of chapter files materialized
under the translated directory is at most the number of source chapters;
(b) every chapter is attempted — its progress line is printed — regardless
of earlier failures (the run continues without aborting); (c) a chapter
whose oracle call fails contributes the warning `Translation error: <e>`
(which carries the exception text but, contrary to the original claim, not
the chapter ordinal — see the counterexample) and no substituted
translation. -/
theorem C3_failure_handling (P : Proc) (fs : List Char → Bool)
    (oracle : List Char → Except (List Char) (List Char)) (i : Nat)
    (chapters : List (List Char)) :
    (process_chapters P fs oracle i chapters).countP (isTransWrite P) ≤ chapters.length
  ∧ (∀ j, j < chapters.length →
      Eff.printE (tl "Translating chapter " ++ (Nat.repr (i + j)).data ++ tl "...")
        ∈ process_chapters P fs oracle i chapters)
  ∧ (∀ j e (hj : j < chapters.length),
      oracle (translate_prompt P.language (chapters.get ⟨j, hj⟩)) = .error e →
      Eff.printE (tl "Translation error: " ++ e) ∈ process_chapters P fs oracle i chapters) := by
  induction chapters generalizing i with
  | nil =>
    refine ⟨by simp [process_chapters], ?_, ?_⟩
    · intro j hj; simp at hj
    · intro j e hj; simp at hj
  | cons ch rest ih =>
    simp only [process_chapters]
    refine ⟨?_, ?_, ?_⟩
    · rw [List.countP_append]
      have h1 := chapterEffs_countP P fs oracle i ch
      have h2 := (ih (i + 1)).1
      simp only [List.length_cons]
      omega
    · intro j hj
      cases j with
      | zero =>
        apply List.mem_append_left
        simp only [Nat.add_zero]
        unfold chapterEffs
        simp
      | succ j =>
        apply List.mem_append_right
        have hj2 : j < rest.length := by simpa using hj
        have hmem := (ih (i + 1)).2.1 j hj2
        rw [show i + 1 + j = i + (j + 1) from by omega] at hmem
        exact hmem
    · intro j e hj ho
      cases j with
      | zero =>
        apply List.mem_append_left
        rw [chapterEffs_error P fs oracle i ch e ho]
        simp
      | succ j =>
        apply List.mem_append_right
        have hj2 : j < rest.length := by simpa using hj
        exact (ih (i + 1)).2.2 j e hj2 ho

/-- C3 counterexample: a full test-mode run on `"# A\n# B"` where both
oracle calls throw `boom` — the two warning lines are literally identical
(`Translation error: boom`), so the warning does not carry the chapter
ordinal; the ordinal appears only in the separate progress line printed
before the attempt.  The claim's "warning carrying that chapter's ordinal"
is false on the code (translator.py:136 prints only the exception text). -/
theorem C3_counterexample :
    process ⟨tl "/docs", tl "book", tl ".md", tl "Italian", true⟩
        (fun _ => false) (fun _ => .error (tl "boom")) ⟨[], []⟩ none (tl "# A\n# B")
      = [.mkdirE (tl "/docs/book/original"), .mkdirE (tl "/docs/book/ita"),
         .mkdirE (tl "/docs/book/images"),
         .printE (tl "Translating chapter 1..."),
         .printE (tl "Translation error: boom"),
         .printE (tl "Translating chapter 2..."),
         .printE (tl "Translation error: boom")]
  ∧ ('2' ∉ tl "Translation error: boom") := by
  refine ⟨by decide, by decide⟩

/-- C3 witness: a two-chapter persist run whose second oracle call fails
with `x` logs `Translation error: x`, prints both progress lines, and
writes at most two translated chapters. -/
theorem C3_failure_handling_witness :
    Eff.printE (tl "Translation error: x")
      ∈ process_chapters ⟨tl "/d", tl "b", tl ".md", tl "English", false⟩
          (fun _ => false)
          (fun q => if q = translate_prompt (tl "English") (tl "B") then .error (tl "x")
                    else .ok (tl "T"))
          1 [tl "A", tl "B"] :=
  (C3_failure_handling ⟨tl "/d", tl "b", tl ".md", tl "English", false⟩
      (fun _ => false)
      (fun q => if q = translate_prompt (tl "English") (tl "B") then .error (tl "x")
                else .ok (tl "T"))
      1 [tl "A", tl "B"]).2.2 1 (tl "x") (by decide) (by rw [if_pos (by decide)])

theorem isTransWrite_print (P : Proc) (m : List Char) : isTransWrite P (.printE m) = false := rfl

/-- C6 amended: in persist mode the pipeline relocates assets on the
original body and materializes the original chapter BEFORE invoking the
Translation Client; hence when translation fails only the translated file
is missing — the original has already been written (contrary to the
original claim that neither file is materialized on failure).  On success
both files are materialized, the translated one from the asset-relocated
translated body. -/
theorem C6_materialization (P : Proc) (fs : List Char → Bool)
    (oracle : List Char → Except (List Char) (List Char)) (i : Nat) (ch : List Char)
    (hmode : P.test_mode = false) :
    (∀ e, oracle (translate_prompt P.language ch) = .error e →
        Eff.writeE ((create_directory_structure P).original ++ '/' :: chapter_filename i)
            (process_markdown_images fs P.parentDir (create_directory_structure P).images ch).2
          ∈ chapterEffs P fs oracle i ch
      ∧ (chapterEffs P fs oracle i ch).countP (isTransWrite P) = 0)
  ∧ (∀ t, oracle (translate_prompt P.language ch) = .ok t → t ≠ [] →
        Eff.writeE ((create_directory_structure P).original ++ '/' :: chapter_filename i)
            (process_markdown_images fs P.parentDir (create_directory_structure P).images ch).2
          ∈ chapterEffs P fs oracle i ch
      ∧ Eff.writeE ((create_directory_structure P).translated ++ '/' :: chapter_filename i)
            (process_markdown_images fs P.parentDir (create_directory_structure P).images t).2
          ∈ chapterEffs P fs oracle i ch) := by
  constructor
  · intro e ho
    rw [chapterEffs_error P fs oracle i ch e ho]
    simp only [hmode, if_false, Bool.false_eq_true]
    constructor
    · simp
    · simp only [List.countP_append]
      rw [pmi_countP_zero]
      simp [List.countP_cons, isTransWrite_orig, isTransWrite_print]
  · intro t ho ht
    rw [chapterEffs_ok P fs oracle i ch t ho ht]
    simp only [hmode, if_false, Bool.false_eq_true]
    constructor
    · simp
    · simp

/-- C6 counterexample: a persist-mode run with one chapter whose oracle
call fails still writes `original/chapter_01.md` — the original is
materialized before the translation attempt (translator.py:145-149), so
"neither file of a chapter is materialized when its translation fails" is
false on the code. -/
theorem C6_counterexample :
    process ⟨tl "/docs", tl "book", tl ".md", tl "Italian", false⟩
        (fun _ => false) (fun _ => .error (tl "boom")) ⟨[], []⟩ none (tl "hello")
      = [.mkdirE (tl "/docs/book/original"), .mkdirE (tl "/docs/book/ita"),
         .mkdirE (tl "/docs/book/images"),
         .writeE (tl "/docs/book/original/chapter_01.md") (tl "hello"),
         .printE (tl "Translating chapter 1..."),
         .printE (tl "Translation error: boom")]
  ∧ Eff.writeE (tl "/docs/book/original/chapter_01.md") (tl "hello")
      ∈ process ⟨tl "/docs", tl "book", tl ".md", tl "Italian", false⟩
          (fun _ => false) (fun _ => .error (tl "boom")) ⟨[], []⟩ none (tl "hello") := by
  refine ⟨by decide, by decide⟩

/-- C6 witness: in a persist-mode chapter whose translation succeeds with
non-empty text, both the original and the translated chapter files are
materialized. -/
theorem C6_materialization_witness :
    Eff.writeE ((create_directory_structure ⟨tl "/d", tl "b", tl ".md", tl "Italian", false⟩).original
          ++ '/' :: chapter_filename 1)
        (process_markdown_images (fun _ => false) (tl "/d")
          (create_directory_structure ⟨tl "/d", tl "b", tl ".md", tl "Italian", false⟩).images
          (tl "hi")).2
      ∈ chapterEffs ⟨tl "/d", tl "b", tl ".md", tl "Italian", false⟩ (fun _ => false)
          (fun _ => .ok (tl "ciao")) 1 (tl "hi")
  ∧ Eff.writeE ((create_directory_structure ⟨tl "/d", tl "b", tl ".md", tl "Italian", false⟩).translated
          ++ '/' :: chapter_filename 1)
        (process_markdown_images (fun _ => false) (tl "/d")
          (create_directory_structure ⟨tl "/d", tl "b", tl ".md", tl "Italian", false⟩).images
          (tl "ciao")).2
      ∈ chapterEffs ⟨tl "/d", tl "b", tl ".md", tl "Italian", false⟩ (fun _ => false)
          (fun _ => .ok (tl "ciao")) 1 (tl "hi") :=
  (C6_materialization ⟨tl "/d", tl "b", tl ".md", tl "Italian", false⟩ (fun _ => false)
      (fun _ => .ok (tl "ciao")) 1 (tl "hi") rfl).2 (tl "ciao") rfl (by decide)

/-- C10: an oracle call that succeeds at the transport level but returns the
empty string is treated exactly like a failure as far as materialization
goes (`if translated:` is false for `""`): the chapter's effects end after
the progress line — no translated file is written in persist mode, nothing
is displayed in preview mode (and, unlike a real failure, no warning is
printed either); in particular no file is materialized under the translated
directory. -/
theorem C10_empty_translation (P : Proc) (fs : List Char → Bool)
    (oracle : List Char → Except (List Char) (List Char)) (i : Nat) (ch : List Char)
    (h : oracle (translate_prompt P.language ch) = .ok []) :
    chapterEffs P fs oracle i ch =
      (process_markdown_images fs P.parentDir (create_directory_structure P).images ch).1
        ++ (if P.test_mode then []
            else [.writeE ((create_directory_structure P).original ++ '/' :: chapter_filename i)
                   (process_markdown_images fs P.parentDir
                     (create_directory_structure P).images ch).2])
        ++ [.printE (tl "Translating chapter " ++ (Nat.repr i).data ++ tl "...")]
  ∧ (chapterEffs P fs oracle i ch).countP (isTransWrite P) = 0 := by
  refine ⟨chapterEffs_empty P fs oracle i ch h, ?_⟩
  rw [chapterEffs_empty P fs oracle i ch h]
  simp only [List.countP_append]
  rw [pmi_countP_zero]
  have h2 : (if P.test_mode then []
      else [Eff.writeE ((create_directory_structure P).original ++ '/' :: chapter_filename i)
             (process_markdown_images fs P.parentDir
               (create_directory_structure P).images ch).2]).countP (isTransWrite P) = 0 := by
    split
    · rfl
    · simp [List.countP_cons, isTransWrite_orig]
  rw [h2]
  simp [List.countP_cons, isTransWrite]

/-- C10 witness: a persist-mode chapter whose oracle returns `""` produces
only the original write and the progress line, and zero translated writes. -/
theorem C10_empty_translation_witness :
    chapterEffs ⟨tl "/d", tl "b", tl ".md", tl "Italian", false⟩ (fun _ => false)
        (fun _ => .ok []) 1 (tl "hi") =
      (process_markdown_images (fun _ => false) (tl "/d")
          (create_directory_structure ⟨tl "/d", tl "b", tl ".md", tl "Italian", false⟩).images
          (tl "hi")).1
        ++ (if (false : Bool) then []
            else [.writeE ((create_directory_structure
                    ⟨tl "/d", tl "b", tl ".md", tl "Italian", false⟩).original
                  ++ '/' :: chapter_filename 1)
                   (process_markdown_images (fun _ => false) (tl "/d")
                     (create_directory_structure
                       ⟨tl "/d", tl "b", tl ".md", tl "Italian", false⟩).images (tl "hi")).2])
        ++ [.printE (tl "Translating chapter " ++ (Nat.repr 1).data ++ tl "...")]
  ∧ (chapterEffs ⟨tl "/d", tl "b", tl ".md", tl "Italian", false⟩ (fun _ => false)
        (fun _ => .ok []) 1 (tl "hi")).countP
        (isTransWrite ⟨tl "/d", tl "b", tl ".md", tl "Italian", false⟩) = 0 :=
  C10_empty_translation ⟨tl "/d", tl "b", tl ".md", tl "Italian", false⟩ (fun _ => false)
    (fun _ => .ok []) 1 (tl "hi") rfl

/-! ## Preview mode and extension dispatch -/

theorem chapterEffs_no_write (P : Proc) (fs : List Char → Bool)
    (oracle : List Char → Except (List Char) (List Char)) (i : Nat) (ch : List Char)
    (hmode : P.test_mode = true) :
    ∀ e ∈ chapterEffs P fs oracle i ch, isWrite e = false := by
  intro e he
  cases ho : oracle (translate_prompt P.language ch) with
  | error er =>
    rw [chapterEffs_error P fs oracle i ch er ho, hmode] at he
    simp at he
    rcases he with he | he | he
    · obtain ⟨src, dst, rfl, _⟩ :=
        pmiFuel_copies fs P.parentDir (create_directory_structure P).images ch.length ch e he
      rfl
    · subst he; rfl
    · subst he; rfl
  | ok t =>
    by_cases ht : t = []
    · subst ht
      rw [chapterEffs_empty P fs oracle i ch ho, hmode] at he
      simp at he
      rcases he with he | he
      · obtain ⟨src, dst, rfl, _⟩ :=
          pmiFuel_copies fs P.parentDir (create_directory_structure P).images ch.length ch e he
        rfl
      · subst he; rfl
    · rw [chapterEffs_ok P fs oracle i ch t ho ht, hmode] at he
      simp [displayEffs] at he
      rcases he with he | he | he | he | he | he | he
      · obtain ⟨src, dst, rfl, _⟩ :=
          pmiFuel_copies fs P.parentDir (create_directory_structure P).images ch.length ch e he
        rfl
      · subst he; rfl
      · obtain ⟨src, dst, rfl, _⟩ :=
          pmiFuel_copies fs P.parentDir (create_directory_structure P).images t.length t e he
        rfl
      · subst he; rfl
      · subst he; rfl
      · subst he; rfl
      · subst he; rfl

theorem process_chapters_no_write (P : Proc) (fs : List Char → Bool)
    (oracle : List Char → Except (List Char) (List Char)) (hmode : P.test_mode = true) :
    ∀ i chapters e, e ∈ process_chapters P fs oracle i chapters → isWrite e = false := by
  intro i chapters
  induction chapters generalizing i with
  | nil => intro e he; simp [process_chapters] at he
  | cons ch rest ih =>
    intro e he
    simp only [process_chapters] at he
    rcases List.mem_append.mp he with h | h
    · exact chapterEffs_no_write P fs oracle i ch hmode e h
    · exact ih (i + 1) e h

/-- C2 amended: a preview (test-mode) run never writes a chapter file —
every effect of the whole run is a directory creation, an asset copy or a
console print, never a file write.  However, contrary to the original
claim, the destination layout IS still touched: the three layout
directories are created up front and existing referenced assets are still
copied into the images directory (the copies and `mkdir`s are not guarded
by `test_mode`; only the two `write_file` calls are). -/
theorem C2_preview_no_chapter_writes (P : Proc) (fs : List Char → Bool)
    (oracle : List Char → Except (List Char) (List Char)) (doc : PdfDoc)
    (er : Option (List (List Char))) (content : List Char) (hmode : P.test_mode = true) :
    ∀ e ∈ process P fs oracle doc er content, isWrite e = false := by
  intro e he
  unfold process at he
  rcases List.mem_append.mp he with h | h
  · simp [dirEffects] at h
    rcases h with h | h | h <;> (subst h; rfl)
  · split at h
    · split at h
      · split at h
        · simp at h
        · exact process_chapters_no_write P fs oracle hmode 1 _ e h
      · simp at h
        subst h; rfl
    · split at h
      · split at h
        · split at h
          · simp at h
          · exact process_chapters_no_write P fs oracle hmode 1 _ e h
        · simp at h
          subst h; rfl
      · split at h
        · have h2 : e ∈ (if split_markdown_into_chapters content = [] then []
              else process_chapters P fs oracle 1 (split_markdown_into_chapters content)) := h
          split at h2
          · simp at h2
          · exact process_chapters_no_write P fs oracle hmode 1 _ e h2
        · simp at h
          subst h; rfl

/-- C2 counterexample: a preview-mode run on a chapter referencing an
existing image still copies that image into the layout's images directory
(and creates the three layout directories) — the only thing preview mode
suppresses is the two chapter writes and it adds the display prints, so
"zero filesystem writes under the destination layout" is false on the
code (the copy in translator.py:110 is not guarded by `test_mode`). -/
theorem C2_counterexample :
    process ⟨tl "/docs", tl "book", tl ".md", tl "Italian", true⟩
        (fun q => decide (q = tl "/docs/pic.png"))
        (fun _ => .error (tl "boom")) ⟨[], []⟩ none (tl "![x](pic.png)")
      = [.mkdirE (tl "/docs/book/original"), .mkdirE (tl "/docs/book/ita"),
         .mkdirE (tl "/docs/book/images"),
         .copyE (tl "/docs/pic.png") (tl "/docs/book/images/pic.png"),
         .printE (tl "Translating chapter 1..."),
         .printE (tl "Translation error: boom")]
  ∧ Eff.copyE (tl "/docs/pic.png") (tl "/docs/book/images/pic.png")
      ∈ process ⟨tl "/docs", tl "book", tl ".md", tl "Italian", true⟩
          (fun q => decide (q = tl "/docs/pic.png"))
          (fun _ => .error (tl "boom")) ⟨[], []⟩ none (tl "![x](pic.png)") := by
  refine ⟨by decide, by decide⟩

/-- C2 witness: in the preview run above, the displayed-progress print is an
effect of the run and it is not a write. -/
theorem C2_preview_no_chapter_writes_witness :
    isWrite (Eff.printE (tl "Translating chapter 1...")) = false :=
  C2_preview_no_chapter_writes ⟨tl "/docs", tl "book", tl ".md", tl "Italian", true⟩
    (fun q => decide (q = tl "/docs/pic.png")) (fun _ => .error (tl "boom"))
    ⟨[], []⟩ none (tl "![x](pic.png)") rfl
    (Eff.printE (tl "Translating chapter 1...")) (by decide)

/-- C1 amended: on an unknown extension the run prints
`Unsupported file type: <ext>` and processes nothing — no chapter is read,
translated or written — but, contrary to the original claim, the run is
not free of side effects: `create_directory_structure` runs BEFORE the
extension dispatch (translator.py:172-174), so the three layout
directories are created even for an unsupported format. -/
theorem C1_unsupported_ext (P : Proc) (fs : List Char → Bool)
    (oracle : List Char → Except (List Char) (List Char)) (doc : PdfDoc)
    (er : Option (List (List Char))) (content : List Char)
    (h1 : P.suffix.map Char.toLower ≠ tl ".pdf")
    (h2 : P.suffix.map Char.toLower ≠ tl ".epub")
    (h3 : P.suffix.map Char.toLower ≠ tl ".md")
    (h4 : P.suffix.map Char.toLower ≠ tl ".txt") :
    process P fs oracle doc er content
      = dirEffects P
        ++ [.printE (tl "Unsupported file type: " ++ P.suffix.map Char.toLower)] := by
  unfold process
  rw [if_neg h1, if_neg h2,
      if_neg (show ¬(P.suffix.map Char.toLower = tl ".md"
          ∨ P.suffix.map Char.toLower = tl ".txt") from fun h => h.elim h3 h4)]

/-- C1 counterexample: a run on `book.docx` creates the full directory
layout before failing the dispatch — the claim's "produces no side
effects: no directory of the destination layout is created" is false on
the code, which calls `create_directory_structure` first. -/
theorem C1_counterexample :
    process ⟨tl "/docs", tl "book", tl ".docx", tl "Italian", false⟩
        (fun _ => false) (fun _ => .error (tl "boom")) ⟨[], []⟩ none []
      = [.mkdirE (tl "/docs/book/original"), .mkdirE (tl "/docs/book/ita"),
         .mkdirE (tl "/docs/book/images"),
         .printE (tl "Unsupported file type: .docx")]
  ∧ Eff.mkdirE (tl "/docs/book/original")
      ∈ process ⟨tl "/docs", tl "book", tl ".docx", tl "Italian", false⟩
          (fun _ => false) (fun _ => .error (tl "boom")) ⟨[], []⟩ none [] := by
  refine ⟨by decide, by decide⟩

/-- C1 witness: the `.docx` run dispatches to the unsupported-format
diagnostic after creating the layout. -/
theorem C1_unsupported_ext_witness :
    process ⟨tl "/docs", tl "book", tl ".docx", tl "Italian", false⟩
        (fun _ => false) (fun _ => .error (tl "boom")) ⟨[], []⟩ none []
      = dirEffects ⟨tl "/docs", tl "book", tl ".docx", tl "Italian", false⟩
        ++ [.printE (tl "Unsupported file type: "
              ++ (tl ".docx").map Char.toLower)] :=
  C1_unsupported_ext ⟨tl "/docs", tl "book", tl ".docx", tl "Italian", false⟩
    (fun _ => false) (fun _ => .error (tl "boom")) ⟨[], []⟩ none []
    (by decide) (by decide) (by decide) (by decide)

/-! ## Page-oriented extraction (C8) -/

theorem getPages_range (pages : List (List Char)) : ∀ n start, start + n ≤ pages.length →
    getPages pages (List.range' start n) = some (concatAll ((pages.drop start).take n)) := by
  intro n
  induction n with
  | zero => intro start _; simp [getPages, concatAll]
  | succ n ih =>
    intro start h
    rw [List.range'_succ]
    simp only [getPages]
    have hlt : start < pages.length := by omega
    rw [List.get?_eq_getElem?, List.getElem?_eq_getElem hlt]
    show (getPages pages (List.range' (start + 1) n)).map (fun acc => pages[start] ++ acc)
        = some (concatAll ((pages.drop start).take (n + 1)))
    rw [ih (start + 1) (by omega)]
    simp only [Option.map_some']
    rw [List.drop_eq_getElem_cons hlt, List.take_succ_cons]
    rfl

theorem specTocChapters_length (pages : List (List Char)) :
    ∀ toc, (specTocChapters pages toc).length = toc.length := by
  intro toc
  induction toc with
  | nil => rfl
  | cons e rest ih =>
    simp only [specTocChapters, List.length_cons]
    rw [ih]

theorem tocChapters_spec (pages : List (List Char)) :
    ∀ toc, (∀ e ∈ toc, 1 ≤ e.2.2 ∧ e.2.2 ≤ pages.length) →
      tocChapters pages toc = some (specTocChapters pages toc) := by
  intro toc
  induction toc with
  | nil => intro _; rfl
  | cons e rest ih =>
    intro h
    have he := h e (List.mem_cons_self e rest)
    cases rest with
    | nil =>
      show (match getPages pages (pageRange (e.2.2 - 1) pages.length) with
            | none => none
            | some text =>
              match tocChapters pages [] with
              | none => none
              | some tail => some ((tl "# " ++ e.2.1 ++ tl "\n\n" ++ text) :: tail))
          = some (specTocChapters pages [e])
      rw [show pageRange (e.2.2 - 1) pages.length
          = List.range' (e.2.2 - 1) (pages.length - (e.2.2 - 1)) from rfl]
      rw [getPages_range pages (pages.length - (e.2.2 - 1)) (e.2.2 - 1) (by omega)]
      show some ((tl "# " ++ e.2.1 ++ tl "\n\n"
            ++ concatAll ((pages.drop (e.2.2 - 1)).take (pages.length - (e.2.2 - 1)))) :: [])
          = some (specTocChapters pages [e])
      have hcount : pages.length - (e.2.2 - 1) = pages.length + 1 - e.2.2 := by omega
      rw [hcount]
      rfl
    | cons e2 rest2 =>
      have he2 := h e2 (List.mem_cons_of_mem e (List.mem_cons_self e2 rest2))
      show (match getPages pages (pageRange (e.2.2 - 1) (e2.2.2 - 1)) with
            | none => none
            | some text =>
              match tocChapters pages (e2 :: rest2) with
              | none => none
              | some tail => some ((tl "# " ++ e.2.1 ++ tl "\n\n" ++ text) :: tail))
          = some (specTocChapters pages (e :: e2 :: rest2))
      rw [show pageRange (e.2.2 - 1) (e2.2.2 - 1)
          = List.range' (e.2.2 - 1) ((e2.2.2 - 1) - (e.2.2 - 1)) from rfl]
      rw [getPages_range pages ((e2.2.2 - 1) - (e.2.2 - 1)) (e.2.2 - 1) (by omega)]
      rw [ih (fun x hx => h x (List.mem_cons_of_mem e hx))]
      show some ((tl "# " ++ e.2.1 ++ tl "\n\n"
            ++ concatAll ((pages.drop (e.2.2 - 1)).take ((e2.2.2 - 1) - (e.2.2 - 1))))
          :: specTocChapters pages (e2 :: rest2))
          = some (specTocChapters pages (e :: e2 :: rest2))
      have hcount : (e2.2.2 - 1) - (e.2.2 - 1) = (e2.2.2 - 1) + 1 - e.2.2 := by omega
      rw [hcount]
      rfl

/-- C8: for a page-oriented source whose outline entries all point at
existing pages, extraction yields exactly one chapter per outline entry —
chapter `k` is the top-level heading synthesized from the entry title
followed by the concatenated text of the pages from that entry's start
page to the page preceding the next entry's start (document end for the
last entry) — and with no outline, exactly one untitled chapter holding
the text of every page.  `specPdfChapters` is the spec-side description;
`pdf_to_markdown` is the code-side extraction. -/
theorem C8_pdf_extraction (doc : PdfDoc)
    (h : ∀ e ∈ doc.toc, 1 ≤ e.2.2 ∧ e.2.2 ≤ doc.pages.length) :
    pdf_to_markdown doc = some (specPdfChapters doc)
  ∧ (specPdfChapters doc).length = (if doc.toc = [] then 1 else doc.toc.length) := by
  unfold pdf_to_markdown specPdfChapters
  by_cases htoc : doc.toc = []
  · rw [if_pos htoc, if_pos htoc, if_pos htoc]
    exact ⟨rfl, rfl⟩
  · rw [if_neg htoc, if_neg htoc, if_neg htoc]
    exact ⟨tocChapters_spec doc.pages doc.toc h,
           specTocChapters_length doc.pages doc.toc⟩

/-- C8 witness: a three-page document with two outline entries starting at
pages 1 and 3 extracts into exactly the two spec-described chapters. -/
theorem C8_pdf_extraction_witness :
    pdf_to_markdown ⟨[tl "p1", tl "p2", tl "p3"], [(1, tl "A", 1), (1, tl "B", 3)]⟩
      = some (specPdfChapters ⟨[tl "p1", tl "p2", tl "p3"], [(1, tl "A", 1), (1, tl "B", 3)]⟩)
  ∧ (specPdfChapters ⟨[tl "p1", tl "p2", tl "p3"], [(1, tl "A", 1), (1, tl "B", 3)]⟩).length
      = (if ([(1, tl "A", 1), (1, tl "B", 3)] : List (Nat × List Char × Nat)) = [] then 1
         else ([(1, tl "A", 1), (1, tl "B", 3)] : List (Nat × List Char × Nat)).length) :=
  C8_pdf_extraction ⟨[tl "p1", tl "p2", tl "p3"], [(1, tl "A", 1), (1, tl "B", 3)]⟩ (by decide)
